import Mathlib

/-!
Shallow embedding of `nvmeshlet_builder.hpp` (NVMeshlet namespace) and proofs
about its packing primitives: the `findMSB` helper, the `Stats` accumulator,
the 32-bit word bit-field codec (`setBitField` / `getBitField`) and the
`PrimitiveCache` meshlet builder with its check-then-insert protocol.

Machine integers are modelled as `Nat` with explicit reduction modulo `2^32`
(or `2^64` for `size_t`) exactly at the operations where the C code performs
unsigned arithmetic that can wrap.  Fixed C arrays are modelled as total
functions `Nat → Nat` together with the element counters of the source struct.
-/

namespace NVMeshlet

/-- Reduction modulo 2^32: the value of a C `uint32_t` expression. -/
def u32 (x : Nat) : Nat := x % 4294967296

/-- C `uint32_t` subtraction `x - y` (wrapping), for `x y < 2^32`. -/
def usub32 (x y : Nat) : Nat := (x + 4294967296 - y) % 4294967296

/-- Reduction modulo 2^64: the value of a C `size_t` expression. -/
def u64 (x : Nat) : Nat := x % 18446744073709551616

/-- findMSB, the non-MSVC branch of the source (lines 428-432): it returns
`__builtin_clz(value)` directly, i.e. the number of leading zero bits of the
32-bit argument, which is `31 - log2 value` for nonzero `value`.
(`__builtin_clz(0)` is undefined in C; the model returns `31` there.) -/
def findMSB (value : Nat) : Nat := 31 - Nat.log2 value

/-- findMSB, the MSVC branch of the source (lines 421-426): `_BitScanReverse`
stores the bit position of the most-significant set bit, i.e. `log2 value`
for nonzero `value`; for `value = 0` the initialised `idx = 0` is returned. -/
def findMSB_bsr (value : Nat) : Nat := Nat.log2 value

/-- The `Stats` struct (source lines 96-122).  `size_t` counters are `Nat`
(reduced mod 2^64 where sums occur); the four `double` accumulators are
modelled as exact rationals, since the source only ever adds them. -/
structure Stats where
  meshletsTotal : Nat := 0
  meshletsStored : Nat := 0
  backfaceTotal : Nat := 0
  primIndices : Nat := 0
  primTotal : Nat := 0
  vertexIndices : Nat := 0
  vertexTotal : Nat := 0
  posBitTotal : Nat := 0
  appended : Nat := 0
  primloadAvg : Rat := 0
  primloadVar : Rat := 0
  vertexloadAvg : Rat := 0
  vertexloadVar : Rat := 0
  deriving Repr, DecidableEq

/-- `Stats::append` (source lines 124-140), field for field: note the source
adds `meshletsTotal`, `meshletsStored`, `backfaceTotal`, `primIndices`,
`vertexIndices`, `vertexTotal`, `primTotal`, `appended` and the four load
accumulators, and touches no other field. -/
def Stats.append (a : Stats) (other : Stats) : Stats :=
  { a with
    meshletsTotal := u64 (a.meshletsTotal + other.meshletsTotal)
    meshletsStored := u64 (a.meshletsStored + other.meshletsStored)
    backfaceTotal := u64 (a.backfaceTotal + other.backfaceTotal)
    primIndices := u64 (a.primIndices + other.primIndices)
    vertexIndices := u64 (a.vertexIndices + other.vertexIndices)
    vertexTotal := u64 (a.vertexTotal + other.vertexTotal)
    primTotal := u64 (a.primTotal + other.primTotal)
    appended := u64 (a.appended + other.appended)
    primloadAvg := a.primloadAvg + other.primloadAvg
    primloadVar := a.primloadVar + other.primloadVar
    vertexloadAvg := a.vertexloadAvg + other.vertexloadAvg
    vertexloadVar := a.vertexloadVar + other.vertexloadVar }

/-- Field-wise summation of two `Stats` as the spec describes `append`
("merges two statistics instances by field-wise summation", with no field
left unmerged): every counter and accumulator of `other` is added into the
corresponding field, including `posBitTotal`.  To be compared against
`Stats.append`, which is translated from the source. -/
def Stats.appendSpec (a : Stats) (other : Stats) : Stats :=
  { meshletsTotal := u64 (a.meshletsTotal + other.meshletsTotal)
    meshletsStored := u64 (a.meshletsStored + other.meshletsStored)
    backfaceTotal := u64 (a.backfaceTotal + other.backfaceTotal)
    primIndices := u64 (a.primIndices + other.primIndices)
    vertexIndices := u64 (a.vertexIndices + other.vertexIndices)
    vertexTotal := u64 (a.vertexTotal + other.vertexTotal)
    primTotal := u64 (a.primTotal + other.primTotal)
    posBitTotal := u64 (a.posBitTotal + other.posBitTotal)
    appended := u64 (a.appended + other.appended)
    primloadAvg := a.primloadAvg + other.primloadAvg
    primloadVar := a.primloadVar + other.primloadVar
    vertexloadAvg := a.vertexloadAvg + other.vertexloadAvg
    vertexloadVar := a.vertexloadVar + other.vertexloadVar }

/-- The quantities `Stats::fprint` (source lines 142-159) computes and prints
once past its guard, with `double` division modelled as exact rational
division. -/
structure StatsReport where
  fprimloadAvg : Rat
  fvertexloadAvg : Rat
  backfaceAvg : Rat
  primWaste : Rat
  vertexWaste : Rat
  meshletWaste : Rat
  deriving Repr, DecidableEq

/-- `Stats::fprint` (source lines 142-159): returns `none` (no output, no
division performed) when `!appended || !meshletsTotal`, otherwise the computed
report line. -/
def Stats.fprintModel (s : Stats) : Option StatsReport :=
  if s.appended = 0 ∨ s.meshletsTotal = 0 then
    none
  else
    let statsNum : Rat := (s.meshletsTotal : Rat)
    some
      { fprimloadAvg := s.primloadAvg / (s.appended : Rat)
        fvertexloadAvg := s.vertexloadAvg / (s.appended : Rat)
        backfaceAvg := (s.backfaceTotal : Rat) / statsNum
        primWaste := (s.primIndices : Rat) / ((s.primTotal * 3 : Nat) : Rat) - 1
        vertexWaste := (s.vertexIndices : Rat) / (s.vertexTotal : Rat) - 1
        meshletWaste := (s.meshletsStored : Rat) / (s.meshletsTotal : Rat) - 1 }

/-- `setBitField` (source lines 367-389).  The word array is a total function
`Nat → Nat` whose entries are `uint32` values; the source's
`assert(idx < arraySize)` is a caller obligation.  The write to `bits[idx+1]`
is guarded by `idx + 1 < arraySize` exactly as in the source, so the high part
of a field straddling past the last word is discarded.  (The source also
computes `sizeLo`/`sizeHi` but only `shiftLo` and `shiftHi = sizeLo` feed the
stores.) -/
def setBitField (arraySize : Nat) (bits : Nat → Nat) (width offset value : Nat) :
    Nat → Nat :=
  let idx := offset / 32
  let shiftLo := offset % 32
  let onlyLo := shiftLo + width ≤ 32
  let sizeLo := if onlyLo then width else 32 - shiftLo
  let shiftHi := sizeLo
  let retLo := u32 (value <<< shiftLo)
  let retHi := value >>> shiftHi
  fun i =>
    if i = idx then bits i ||| retLo
    else if i = idx + 1 ∧ idx + 1 < arraySize then bits i ||| retHi
    else bits i

/-- `getBitField` (source lines 391-415).  Reading the word past the end of
the array yields 0 (`rawHi`), mirroring the source's guarded read; `~0` is
`4294967295`. -/
def getBitField (arraySize : Nat) (bits : Nat → Nat) (width offset : Nat) : Nat :=
  let idx := offset / 32
  let rawLo := bits idx
  let rawHi := if idx + 1 < arraySize then bits (idx + 1) else 0
  let shiftLo := offset % 32
  let onlyLo := shiftLo + width ≤ 32
  let sizeLo := if onlyLo then width else 32 - shiftLo
  let sizeHi := if onlyLo then 0 else shiftLo + width - 32
  let shiftHi := sizeLo
  let maskLo := if width = 32 then 4294967295 else (1 <<< sizeLo) - 1
  let maskU := (1 <<< sizeHi) - 1
  let retLo := (rawLo >>> shiftLo) &&& maskLo
  let retHi := u32 ((rawHi &&& maskU) <<< shiftHi)
  retLo ||| retHi

/-- The `PrimitiveCache` struct (source lines 437-455).  The two fixed arrays
are total functions together with the `numPrims` / `numVertices` counters; a
primitive entry is the triple of its three `uint8_t` local indices. -/
structure PrimitiveCache where
  primitives : Nat → Nat × Nat × Nat
  vertices : Nat → Nat
  numPrims : Nat
  numVertices : Nat
  numVertexDeltaBits : Nat
  numVertexAllBits : Nat
  maxVertexSize : Nat
  maxPrimitiveSize : Nat
  primitiveBits : Nat
  maxBlockBits : Nat

/-- A freshly value-initialized `PrimitiveCache` whose four configuration
fields have then been set by the builder: the arrays and counters are
zero-initialized by the `{}` member initializers. -/
def PrimitiveCache.fresh (maxVertexSize maxPrimitiveSize primitiveBits maxBlockBits : Nat) :
    PrimitiveCache :=
  { primitives := fun _ => (0, 0, 0)
    vertices := fun _ => 0
    numPrims := 0
    numVertices := 0
    numVertexDeltaBits := 0
    numVertexAllBits := 0
    maxVertexSize := maxVertexSize
    maxPrimitiveSize := maxPrimitiveSize
    primitiveBits := primitiveBits
    maxBlockBits := maxBlockBits }

/-- `PrimitiveCache::reset` (source lines 458-466): zeroes the counters and
memsets the `vertices` array to `0xFFFFFFFF`; the `primitives` array is left
untouched. -/
def PrimitiveCache.reset (s : PrimitiveCache) : PrimitiveCache :=
  { s with
    numPrims := 0
    numVertices := 0
    numVertexDeltaBits := 0
    numVertexAllBits := 0
    vertices := fun _ => 4294967295 }

/-- `PrimitiveCache::fitsBlock` (source lines 468-474), with the `uint32_t`
subtractions and multiplications wrapping mod 2^32 (note `numPrims - 1`
wraps to `0xFFFFFFFF` on an empty cache). -/
def PrimitiveCache.fitsBlock (s : PrimitiveCache) : Bool :=
  let primBits := u32 (usub32 s.numPrims 1 * 3 * s.primitiveBits)
  let vertBits := u32 (usub32 s.numVertices 1 * s.numVertexDeltaBits)
  decide (u32 (primBits + vertBits) ≤ s.maxBlockBits)

/-- The `found` counter of `cannotInsert` / `cannotInsertBlock` (source lines
488-498 and 512-522): for each `v < numVertices` and each of the three
indices, count a match of `vertices[v]` (the three per-`v` increments are
summed directly). -/
def PrimitiveCache.foundCount (s : PrimitiveCache) (idxA idxB idxC : Nat) : Nat :=
  ((List.range s.numVertices).map fun v =>
    (if s.vertices v = idxA then 1 else 0) + (if s.vertices v = idxB then 1 else 0) +
      (if s.vertices v = idxC then 1 else 0)).sum

/-- `PrimitiveCache::cannotInsert` (source lines 476-501): degenerate
triangles are insertable; otherwise the new vertex count or primitive count
must not exceed the configured maxima. -/
def PrimitiveCache.cannotInsert (s : PrimitiveCache) (idxA idxB idxC : Nat) : Bool :=
  if idxA = idxB ∨ idxA = idxC ∨ idxB = idxC then false
  else
    let found := u32 (s.foundCount idxA idxB idxC)
    decide (usub32 (u32 (s.numVertices + 3)) found > s.maxVertexSize) ||
      decide (u32 (s.numPrims + 1) > s.maxPrimitiveSize)

/-- `PrimitiveCache::cannotInsertBlock` (source lines 503-544): additionally
computes the prospective vertex-delta bit width from `findMSB` on
`(firstVertex XOR index) OR 1` and checks the packed-block bit budget. -/
def PrimitiveCache.cannotInsertBlock (s : PrimitiveCache) (idxA idxB idxC : Nat) : Bool :=
  if idxA = idxB ∨ idxA = idxC ∨ idxB = idxC then false
  else
    let found := u32 (s.foundCount idxA idxB idxC)
    let firstVertex := if s.numVertices ≠ 0 then s.vertices 0 else idxA
    let cmpBits :=
      max (findMSB ((firstVertex ^^^ idxA) ||| 1))
          (max (findMSB ((firstVertex ^^^ idxB) ||| 1))
               (findMSB ((firstVertex ^^^ idxC) ||| 1))) + 1
    let deltaBits := max cmpBits s.numVertexDeltaBits
    let newVertices := usub32 (u32 (s.numVertices + 3)) found
    let newPrims := u32 (s.numPrims + 1)
    let newVertBits := u32 (usub32 newVertices 1 * deltaBits)
    let newPrimBits := u32 (usub32 newPrims 1 * 3 * s.primitiveBits)
    let newBits := u32 (newVertBits + newPrimBits)
    decide (newPrims > s.maxPrimitiveSize) || decide (newVertices > s.maxVertexSize) ||
      decide (newBits > s.maxBlockBits)

/-- The inner vertex lookup of `PrimitiveCache::insert` (source lines
560-569): the first `v < numVertices` with `vertices[v] == idx`, if any. -/
def PrimitiveCache.findVertex (s : PrimitiveCache) (idx : Nat) : Option Nat :=
  (List.range s.numVertices).find? fun v => s.vertices v == idx

/-- One iteration of the vertex loop of `PrimitiveCache::insert` (source lines
557-583): returns the updated cache and the local index `tri[i]`.  When the
index is new it is appended at `vertices[numVertices]`, `numVertexDeltaBits`
is widened against `findMSB((idx ^ vertices[0]) | 1) + 1` when the cache was
non-empty, and `numVertexAllBits` against `findMSB(idx) + 1`.  (The source
reads `vertices[0]` after the store at `numVertices`, which only differs from
the pre-store array when `numVertices == 0`, and in that case the branch is
not taken.) -/
def PrimitiveCache.insertVertex (s : PrimitiveCache) (idx : Nat) : PrimitiveCache × Nat :=
  match s.findVertex idx with
  | some v => (s, v)
  | none =>
    ({ s with
        vertices := fun v => if v = s.numVertices then idx else s.vertices v
        numVertexDeltaBits :=
          if s.numVertices ≠ 0 then
            max (findMSB ((idx ^^^ s.vertices 0) ||| 1) + 1) s.numVertexDeltaBits
          else s.numVertexDeltaBits
        numVertexAllBits := max s.numVertexAllBits (findMSB idx + 1)
        numVertices := u32 (s.numVertices + 1) },
      s.numVertices)

/-- `PrimitiveCache::insert` (source lines 546-591): degenerate triangles
return the cache unchanged; otherwise the three indices are resolved to local
indices in order and the primitive entry is stored at `numPrims` with each
local index truncated to its `uint8_t` (`PrimitiveIndexType`) slot. -/
def PrimitiveCache.insert (s : PrimitiveCache) (idxA idxB idxC : Nat) : PrimitiveCache :=
  if idxA = idxB ∨ idxA = idxC ∨ idxB = idxC then s
  else
    let p1 := s.insertVertex idxA
    let p2 := p1.1.insertVertex idxB
    let p3 := p2.1.insertVertex idxC
    let s3 := p3.1
    { s3 with
      primitives := fun p =>
        if p = s3.numPrims then (p1.2 % 256, p2.2 % 256, p3.2 % 256) else s3.primitives p
      numPrims := u32 (s3.numPrims + 1) }

/-- The `assert(fitsBlock())` at the end of `PrimitiveCache::insert` (source
line 590), which is only reached on the non-degenerate path: `true` means the
assertion either is not executed (degenerate early return) or holds. -/
def PrimitiveCache.insertAssertOk (s : PrimitiveCache) (idxA idxB idxC : Nat) : Bool :=
  if idxA = idxB ∨ idxA = idxC ∨ idxB = idxC then true
  else (s.insert idxA idxB idxC).fitsBlock

/-- The written prefix of the `vertices` array: the cluster's distinct
original indices in local-index order. -/
def PrimitiveCache.verticesList (s : PrimitiveCache) : List Nat :=
  (List.range s.numVertices).map s.vertices

/-- Append an element to a list unless it is already present: the first-use
order of original indices. -/
def addUnique (l : List Nat) (x : Nat) : List Nat :=
  if x ∈ l then l else l ++ [x]

/-- Record the three corners of a triangle in first-use order. -/
def addTriangle (l : List Nat) (t : Nat × Nat × Nat) : List Nat :=
  addUnique (addUnique (addUnique l t.1) t.2.1) t.2.2

/-- The distinct corner indices of a triangle stream in order of first use. -/
def firstUses (acc : List (Nat × Nat × Nat)) : List Nat :=
  acc.foldl addTriangle []

/-- The check-then-insert protocol of the claims: process each triangle of the
stream by calling `cannotInsert` and inserting exactly when it returns
`false`; `acc` collects the triangles actually recorded in the primitives
array (those inserted and non-degenerate, since degenerate inserts are
no-ops). -/
def PrimitiveCache.runAcc (s : PrimitiveCache) (acc : List (Nat × Nat × Nat)) :
    List (Nat × Nat × Nat) → PrimitiveCache × List (Nat × Nat × Nat)
  | [] => (s, acc)
  | t :: rest =>
    if s.cannotInsert t.1 t.2.1 t.2.2 = false then
      (s.insert t.1 t.2.1 t.2.2).runAcc
        (if t.1 = t.2.1 ∨ t.1 = t.2.2 ∨ t.2.1 = t.2.2 then acc else acc ++ [t]) rest
    else s.runAcc acc rest

/-- States reachable under the check-then-insert protocol for the packed-block
variant: starting from a `reset()` cache whose configuration is within the
documented limits (`maxVertexSize`, `maxPrimitiveSize` at most 256 and a
per-primitive-index bit width of at most 32), each `insert` is preceded by
`cannotInsertBlock` returning `false` on the current state. -/
inductive PrimitiveCache.ReachedBlock : PrimitiveCache → Prop
  | reset (s : PrimitiveCache) (hv : s.maxVertexSize ≤ 256)
      (hp : s.maxPrimitiveSize ≤ 256) (hb : s.primitiveBits ≤ 32) :
      PrimitiveCache.ReachedBlock s.reset
  | step (s : PrimitiveCache) (a b c : Nat) (h : PrimitiveCache.ReachedBlock s)
      (hg : s.cannotInsertBlock a b c = false) :
      PrimitiveCache.ReachedBlock (s.insert a b c)

/-- States reachable under the check-then-insert protocol of claims about
`cannotInsert`: starting from a `reset()` cache with `maxVertexSize` and
`maxPrimitiveSize` at most 256, each `insert` is preceded by `cannotInsert`
returning `false` on the current state. -/
inductive PrimitiveCache.ReachedCk : PrimitiveCache → Prop
  | reset (s : PrimitiveCache) (hv : s.maxVertexSize ≤ 256)
      (hp : s.maxPrimitiveSize ≤ 256) : PrimitiveCache.ReachedCk s.reset
  | step (s : PrimitiveCache) (a b c : Nat) (h : PrimitiveCache.ReachedCk s)
      (hg : s.cannotInsert a b c = false) : PrimitiveCache.ReachedCk (s.insert a b c)

/-- The state invariant maintained by the `cannotInsert`-guarded protocol:
configuration within limits, counters within the configured maxima, and a
duplicate-free written vertex prefix. -/
structure CkInv (s : PrimitiveCache) : Prop where
  hvmax : s.maxVertexSize ≤ 256
  hpmax : s.maxPrimitiveSize ≤ 256
  hv : s.numVertices ≤ s.maxVertexSize
  hp : s.numPrims ≤ s.maxPrimitiveSize
  hnd : s.verticesList.Nodup

/-- The state invariant maintained by the `cannotInsertBlock`-guarded
protocol: additionally the configured per-primitive-index width and the
accumulated vertex-delta width are at most 32 bits. -/
structure BlockInv (s : PrimitiveCache) : Prop where
  hvmax : s.maxVertexSize ≤ 256
  hpmax : s.maxPrimitiveSize ≤ 256
  hbits : s.primitiveBits ≤ 32
  hv : s.numVertices ≤ s.maxVertexSize
  hp : s.numPrims ≤ s.maxPrimitiveSize
  hnd : s.verticesList.Nodup
  hdb : s.numVertexDeltaBits ≤ 32

/-- A stored primitive entry `tri` resolves, corner by corner, to the original
triangle `t`: each local index is in range and looks up the original index. -/
def PrimTriOk (s : PrimitiveCache) (t : Nat × Nat × Nat) (tri : Nat × Nat × Nat) : Prop :=
  (tri.1 < s.numVertices ∧ s.vertices tri.1 = t.1) ∧
    (tri.2.1 < s.numVertices ∧ s.vertices tri.2.1 = t.2.1) ∧
    (tri.2.2 < s.numVertices ∧ s.vertices tri.2.2 = t.2.2)

/-- Round-trip fidelity of a finished run `r = (state, accepted)`: the local
vertex list is exactly the accepted corners in first-use order (hence pairwise
distinct and dense), one primitive entry per accepted triangle, and every
entry resolves to its original triangle. -/
def RoundTripOk (r : PrimitiveCache × List (Nat × Nat × Nat)) : Prop :=
  r.1.verticesList.Nodup ∧
    r.1.verticesList = firstUses r.2 ∧
    r.1.numPrims = r.2.length ∧
    ∀ p : Fin r.2.length, PrimTriOk r.1 (r.2.get p) (r.1.primitives p)

/-- The simulation invariant of a `runAcc` run: on top of `CkInv`, the
written vertex prefix is the accepted corners in first-use order and the
primitives prefix resolves entry-by-entry to the accepted triangles. -/
structure CacheInv (s : PrimitiveCache) (acc : List (Nat × Nat × Nat)) : Prop where
  hvmax : s.maxVertexSize ≤ 256
  hpmax : s.maxPrimitiveSize ≤ 256
  hv : s.numVertices ≤ s.maxVertexSize
  hp : s.numPrims ≤ s.maxPrimitiveSize
  hvlist : s.verticesList = firstUses acc
  hnp : s.numPrims = acc.length
  hprim : ∀ p : Fin acc.length, PrimTriOk s (acc.get p) (s.primitives p)

/-- Equality of the observable results of a run: counters, bit widths and the
written prefixes of both arrays.  The unwritten tails of the arrays (stale
after `reset()`, zero on a fresh cache) are not observable. -/
def ObsEq (s t : PrimitiveCache) : Prop :=
  s.numPrims = t.numPrims ∧ s.numVertices = t.numVertices ∧
    s.numVertexDeltaBits = t.numVertexDeltaBits ∧
    s.numVertexAllBits = t.numVertexAllBits ∧
    (∀ p, p < s.numPrims → s.primitives p = t.primitives p) ∧
    ∀ v, v < s.numVertices → s.vertices v = t.vertices v

/-- Equality of the four configuration fields. -/
def ConfigEq (s t : PrimitiveCache) : Prop :=
  s.maxVertexSize = t.maxVertexSize ∧ s.maxPrimitiveSize = t.maxPrimitiveSize ∧
    s.primitiveBits = t.primitiveBits ∧ s.maxBlockBits = t.maxBlockBits

/-! ## Helper lemmas -/

theorem u32_of_lt {x : Nat} (h : x < 4294967296) : u32 x = x :=
  Nat.mod_eq_of_lt h

theorem usub32_of_le {x y : Nat} (hyx : y ≤ x) (hx : x < 4294967296) :
    usub32 x y = x - y := by
  unfold usub32
  omega

theorem findMSB_le (v : Nat) : findMSB v ≤ 31 :=
  Nat.sub_le 31 _

theorem verticesList_length (s : PrimitiveCache) :
    s.verticesList.length = s.numVertices := by
  simp [PrimitiveCache.verticesList]

theorem shifted_mod_read (sLo value : Nat) (hs : sLo ≤ 32) :
    u32 (value <<< sLo) >>> sLo = value % 2 ^ (32 - sLo) := by
  rw [Nat.shiftLeft_eq, Nat.shiftRight_eq_div_pow, u32]
  have h32 : (4294967296 : Nat) = 2 ^ (32 - sLo) * 2 ^ sLo := by
    rw [← pow_add, Nat.sub_add_cancel hs]
    norm_num
  rw [h32, Nat.mul_mod_mul_right, Nat.mul_div_cancel _ (Nat.two_pow_pos sLo)]

theorem lor_low_high (low hi k : Nat) (hlow : low < 2 ^ k) :
    low ||| hi * 2 ^ k = low + 2 ^ k * hi := by
  rw [Nat.lor_comm, Nat.mul_comm hi, ← Nat.mul_add_lt_is_or hlow, Nat.add_comm]

theorem setBitField_at_idx (arraySize width offset value : Nat) :
    setBitField arraySize (fun _ => 0) width offset value (offset / 32) =
      u32 (value <<< (offset % 32)) := by
  simp [setBitField]

theorem setBitField_at_next (arraySize width offset value : Nat) :
    setBitField arraySize (fun _ => 0) width offset value (offset / 32 + 1) =
      if offset / 32 + 1 < arraySize then
        value >>> (if offset % 32 + width ≤ 32 then width else 32 - offset % 32)
      else 0 := by
  simp only [setBitField]
  rw [if_neg (show ¬(offset / 32 + 1 = offset / 32) by omega)]
  by_cases harr : offset / 32 + 1 < arraySize
  · rw [if_pos ⟨trivial, harr⟩, if_pos harr, Nat.zero_or]
  · rw [if_neg (fun h => harr h.2), if_neg harr]

theorem setBitField_other (arraySize width offset value i : Nat)
    (h1 : i ≠ offset / 32) (h2 : i ≠ offset / 32 + 1 ∨ ¬offset / 32 + 1 < arraySize) :
    setBitField arraySize (fun _ => 0) width offset value i = 0 := by
  simp only [setBitField]
  rcases h2 with h2 | h2
  · rw [if_neg h1, if_neg (fun hc => h2 hc.1)]
  · rw [if_neg h1, if_neg (fun hc => h2 hc.2)]

theorem addUnique_mem (l : List Nat) (x y : Nat) :
    y ∈ addUnique l x ↔ y ∈ l ∨ y = x := by
  unfold addUnique
  by_cases h : x ∈ l
  · simp only [if_pos h]
    constructor
    · exact Or.inl
    · rintro (hy | rfl)
      · exact hy
      · exact h
  · simp [if_neg h]

theorem addUnique_length (l : List Nat) (x : Nat) :
    (addUnique l x).length = if x ∈ l then l.length else l.length + 1 := by
  unfold addUnique
  split <;> simp

theorem addUnique_nodup (l : List Nat) (x : Nat) (h : l.Nodup) :
    (addUnique l x).Nodup := by
  unfold addUnique
  split
  · exact h
  · rename_i hx
    simp [List.nodup_append, h, hx]

theorem addTriangle_mem (l : List Nat) (t : Nat × Nat × Nat) (y : Nat) :
    y ∈ addTriangle l t ↔ y ∈ l ∨ y = t.1 ∨ y = t.2.1 ∨ y = t.2.2 := by
  unfold addTriangle
  rw [addUnique_mem, addUnique_mem, addUnique_mem]
  tauto

theorem addTriangle_nodup (l : List Nat) (t : Nat × Nat × Nat) (h : l.Nodup) :
    (addTriangle l t).Nodup :=
  addUnique_nodup _ _ (addUnique_nodup _ _ (addUnique_nodup _ _ h))

theorem addTriangle_length (l : List Nat) (t : Nat × Nat × Nat) (hnd : l.Nodup)
    (h12 : t.1 ≠ t.2.1) (h13 : t.1 ≠ t.2.2) (h23 : t.2.1 ≠ t.2.2) :
    (addTriangle l t).length =
      l.length + 3 - (l.count t.1 + l.count t.2.1 + l.count t.2.2) := by
  unfold addTriangle
  have mb : t.2.1 ∈ addUnique l t.1 ↔ t.2.1 ∈ l := by
    rw [addUnique_mem]
    simp [Ne.symm h12]
  have mc : t.2.2 ∈ addUnique (addUnique l t.1) t.2.1 ↔ t.2.2 ∈ l := by
    rw [addUnique_mem, addUnique_mem]
    simp [Ne.symm h13, Ne.symm h23]
  rw [addUnique_length, addUnique_length, addUnique_length,
    List.count_eq_of_nodup hnd, List.count_eq_of_nodup hnd, List.count_eq_of_nodup hnd]
  simp only [mb, mc]
  by_cases h1 : t.1 ∈ l <;> by_cases h2 : t.2.1 ∈ l <;> by_cases h3 : t.2.2 ∈ l <;>
    simp [h1, h2, h3]

theorem triple_count (l : List Nat) (a b c : Nat) :
    (l.map fun y =>
        (if y = a then 1 else 0) + (if y = b then 1 else 0) +
          (if y = c then 1 else 0)).sum =
      l.count a + l.count b + l.count c := by
  induction l with
  | nil => simp
  | cons y t ih =>
    simp only [List.map_cons, List.sum_cons, List.count_cons, ih, beq_iff_eq]
    by_cases h1 : y = a <;> by_cases h2 : y = b <;> by_cases h3 : y = c <;>
      simp [h1, h2, h3, eq_comm] <;> omega

theorem firstUses_append (acc : List (Nat × Nat × Nat)) (t : Nat × Nat × Nat) :
    firstUses (acc ++ [t]) = addTriangle (firstUses acc) t := by
  unfold firstUses
  rw [List.foldl_append]
  rfl

theorem nodup_foldl_addTriangle (acc : List (Nat × Nat × Nat)) :
    ∀ l : List Nat, l.Nodup → (acc.foldl addTriangle l).Nodup := by
  induction acc with
  | nil => exact fun l h => h
  | cons t rest ih => exact fun l h => ih _ (addTriangle_nodup l t h)

theorem firstUses_nodup (acc : List (Nat × Nat × Nat)) : (firstUses acc).Nodup :=
  nodup_foldl_addTriangle acc [] List.nodup_nil

theorem foundCount_eq_counts (s : PrimitiveCache) (a b c : Nat) :
    s.foundCount a b c =
      s.verticesList.count a + s.verticesList.count b + s.verticesList.count c := by
  unfold PrimitiveCache.foundCount
  have hmm : ((List.range s.numVertices).map fun v =>
        (if s.vertices v = a then 1 else 0) + (if s.vertices v = b then 1 else 0) +
          (if s.vertices v = c then 1 else 0)) =
      s.verticesList.map fun y =>
        (if y = a then 1 else 0) + (if y = b then 1 else 0) + (if y = c then 1 else 0) := by
    rw [PrimitiveCache.verticesList, List.map_map]
    rfl
  rw [hmm, triple_count]

theorem foundCount_le_three (s : PrimitiveCache) (hnd : s.verticesList.Nodup)
    (a b c : Nat) : s.foundCount a b c ≤ 3 := by
  rw [foundCount_eq_counts]
  have h := List.nodup_iff_count_le_one.mp hnd
  have ha := h a
  have hb := h b
  have hc := h c
  omega

theorem findVertex_eq_none (s : PrimitiveCache) (idx : Nat) :
    s.findVertex idx = none ↔ idx ∉ s.verticesList := by
  simp only [PrimitiveCache.findVertex, List.find?_eq_none, PrimitiveCache.verticesList,
    List.mem_map, List.mem_range, beq_iff_eq]
  constructor
  · rintro h ⟨v, hv, rfl⟩
    exact h v hv rfl
  · intro h v hv hveq
    exact h ⟨v, hv, hveq⟩

theorem findVertex_some (s : PrimitiveCache) (idx v : Nat)
    (h : s.findVertex idx = some v) : v < s.numVertices ∧ s.vertices v = idx := by
  have h1 := List.mem_of_find?_eq_some h
  have h2 := List.find?_some h
  rw [List.mem_range] at h1
  rw [beq_iff_eq] at h2
  exact ⟨h1, h2⟩

theorem insertVertex_numPrims (s : PrimitiveCache) (idx : Nat) :
    (s.insertVertex idx).1.numPrims = s.numPrims := by
  unfold PrimitiveCache.insertVertex
  cases s.findVertex idx <;> rfl

theorem insertVertex_primitives (s : PrimitiveCache) (idx : Nat) :
    (s.insertVertex idx).1.primitives = s.primitives := by
  unfold PrimitiveCache.insertVertex
  cases s.findVertex idx <;> rfl

theorem insertVertex_maxVertexSize (s : PrimitiveCache) (idx : Nat) :
    (s.insertVertex idx).1.maxVertexSize = s.maxVertexSize := by
  unfold PrimitiveCache.insertVertex
  cases s.findVertex idx <;> rfl

theorem insertVertex_maxPrimitiveSize (s : PrimitiveCache) (idx : Nat) :
    (s.insertVertex idx).1.maxPrimitiveSize = s.maxPrimitiveSize := by
  unfold PrimitiveCache.insertVertex
  cases s.findVertex idx <;> rfl

theorem insertVertex_primitiveBits (s : PrimitiveCache) (idx : Nat) :
    (s.insertVertex idx).1.primitiveBits = s.primitiveBits := by
  unfold PrimitiveCache.insertVertex
  cases s.findVertex idx <;> rfl

theorem insertVertex_maxBlockBits (s : PrimitiveCache) (idx : Nat) :
    (s.insertVertex idx).1.maxBlockBits = s.maxBlockBits := by
  unfold PrimitiveCache.insertVertex
  cases s.findVertex idx <;> rfl

theorem insertVertex_verticesList (s : PrimitiveCache) (idx : Nat)
    (hn : s.numVertices + 1 < 4294967296) :
    (s.insertVertex idx).1.verticesList = addUnique s.verticesList idx := by
  cases h : s.findVertex idx with
  | some v =>
    have hs := findVertex_some s idx v h
    have hmem : idx ∈ s.verticesList := by
      rw [PrimitiveCache.verticesList]
      exact List.mem_map.mpr ⟨v, List.mem_range.mpr hs.1, hs.2⟩
    rw [PrimitiveCache.insertVertex, h, addUnique, if_pos hmem]
  | none =>
    have hmem : idx ∉ s.verticesList := (findVertex_eq_none s idx).mp h
    rw [PrimitiveCache.insertVertex, h, addUnique, if_neg hmem]
    show ((List.range (u32 (s.numVertices + 1))).map fun v =>
        if v = s.numVertices then idx else s.vertices v) = s.verticesList ++ [idx]
    rw [u32_of_lt hn, List.range_succ, List.map_append, PrimitiveCache.verticesList]
    congr 1
    · exact List.map_congr_left fun v hv =>
        if_neg (Nat.ne_of_lt (List.mem_range.mp hv))
    · simp

theorem insertVertex_vertices_lt (s : PrimitiveCache) (idx v : Nat)
    (hv : v < s.numVertices) : (s.insertVertex idx).1.vertices v = s.vertices v := by
  cases h : s.findVertex idx with
  | some w => rw [PrimitiveCache.insertVertex, h]
  | none =>
    rw [PrimitiveCache.insertVertex, h]
    exact if_neg (Nat.ne_of_lt hv)

theorem insertVertex_numVertices_le (s : PrimitiveCache) (idx : Nat)
    (hn : s.numVertices + 1 < 4294967296) :
    s.numVertices ≤ (s.insertVertex idx).1.numVertices := by
  have h1 := insertVertex_verticesList s idx hn
  have h2 := congrArg List.length h1
  rw [verticesList_length, addUnique_length, verticesList_length] at h2
  rw [h2]
  split <;> omega

theorem insertVertex_resolves (s : PrimitiveCache) (idx : Nat)
    (hn : s.numVertices + 1 < 4294967296) :
    (s.insertVertex idx).2 < (s.insertVertex idx).1.numVertices ∧
      (s.insertVertex idx).1.vertices (s.insertVertex idx).2 = idx := by
  cases h : s.findVertex idx with
  | some v =>
    have hs := findVertex_some s idx v h
    rw [PrimitiveCache.insertVertex, h]
    exact hs
  | none =>
    rw [PrimitiveCache.insertVertex, h]
    refine ⟨?_, if_pos rfl⟩
    show s.numVertices < u32 (s.numVertices + 1)
    rw [u32_of_lt hn]
    omega

theorem insertVertex_delta_le (s : PrimitiveCache) (idx F : Nat)
    (hF : s.numVertices = 0 ∨ s.vertices 0 = F) :
    (s.insertVertex idx).1.numVertexDeltaBits ≤
      max (findMSB ((F ^^^ idx) ||| 1) + 1) s.numVertexDeltaBits := by
  cases h : s.findVertex idx with
  | some v =>
    rw [PrimitiveCache.insertVertex, h]
    exact le_max_right _ _
  | none =>
    rw [PrimitiveCache.insertVertex, h]
    by_cases h0 : s.numVertices = 0
    · show (if s.numVertices ≠ 0 then _ else s.numVertexDeltaBits) ≤ _
      rw [if_neg (by omega)]
      exact le_max_right _ _
    · rcases hF with hF | hF
      · exact absurd hF h0
      · show (if s.numVertices ≠ 0 then
            max (findMSB ((idx ^^^ s.vertices 0) ||| 1) + 1) s.numVertexDeltaBits
          else s.numVertexDeltaBits) ≤ _
        rw [if_pos h0, hF, Nat.xor_comm]

theorem insertVertex_vertices_zero (s : PrimitiveCache) (idx F : Nat)
    (hn : s.numVertices + 1 < 4294967296)
    (hF : (s.numVertices = 0 ∧ idx = F) ∨ (0 < s.numVertices ∧ s.vertices 0 = F)) :
    0 < (s.insertVertex idx).1.numVertices ∧ (s.insertVertex idx).1.vertices 0 = F := by
  cases h : s.findVertex idx with
  | some v =>
    have hs := findVertex_some s idx v h
    rw [PrimitiveCache.insertVertex, h]
    rcases hF with ⟨h0, _⟩ | ⟨h0, hF⟩
    · omega
    · exact ⟨h0, hF⟩
  | none =>
    rw [PrimitiveCache.insertVertex, h]
    constructor
    · show 0 < u32 (s.numVertices + 1)
      rw [u32_of_lt hn]
      omega
    · show (if 0 = s.numVertices then idx else s.vertices 0) = F
      rcases hF with ⟨h0, hidx⟩ | ⟨h0, hF⟩
      · rw [if_pos h0.symm]
        exact hidx
      · rw [if_neg (by omega)]
        exact hF

theorem insert_of_degenerate (s : PrimitiveCache) (a b c : Nat)
    (h : a = b ∨ a = c ∨ b = c) : s.insert a b c = s := by
  unfold PrimitiveCache.insert
  exact if_pos h

theorem insert_fields (s : PrimitiveCache) (a b c : Nat)
    (hnd : ¬(a = b ∨ a = c ∨ b = c)) :
    s.insert a b c =
      { (((s.insertVertex a).1.insertVertex b).1.insertVertex c).1 with
        primitives := fun p =>
          if p = (((s.insertVertex a).1.insertVertex b).1.insertVertex c).1.numPrims then
            ((s.insertVertex a).2 % 256, ((s.insertVertex a).1.insertVertex b).2 % 256,
              (((s.insertVertex a).1.insertVertex b).1.insertVertex c).2 % 256)
          else (((s.insertVertex a).1.insertVertex b).1.insertVertex c).1.primitives p
        numPrims :=
          u32 ((((s.insertVertex a).1.insertVertex b).1.insertVertex c).1.numPrims + 1) } := by
  unfold PrimitiveCache.insert
  rw [if_neg hnd]

theorem addUnique_length_le (l : List Nat) (x : Nat) :
    (addUnique l x).length ≤ l.length + 1 := by
  rw [addUnique_length]
  split <;> omega

theorem insertVertex_numVertices_le' (s : PrimitiveCache) (idx : Nat)
    (hn : s.numVertices + 1 < 4294967296) :
    (s.insertVertex idx).1.numVertices ≤ s.numVertices + 1 := by
  have h1 := insertVertex_verticesList s idx hn
  have h2 := congrArg List.length h1
  rw [verticesList_length, addUnique_length, verticesList_length] at h2
  rw [h2]
  split <;> omega

theorem insert_verticesList (s : PrimitiveCache) (a b c : Nat)
    (hnd : ¬(a = b ∨ a = c ∨ b = c)) (hsm : s.numVertices + 3 < 4294967296) :
    (s.insert a b c).verticesList =
      addUnique (addUnique (addUnique s.verticesList a) b) c := by
  have ha : (s.insertVertex a).1.verticesList = addUnique s.verticesList a :=
    insertVertex_verticesList s a (by omega)
  have hna : (s.insertVertex a).1.numVertices ≤ s.numVertices + 1 :=
    insertVertex_numVertices_le' s a (by omega)
  have hb : ((s.insertVertex a).1.insertVertex b).1.verticesList =
      addUnique (addUnique s.verticesList a) b := by
    rw [insertVertex_verticesList _ b (by omega), ha]
  have hnb : ((s.insertVertex a).1.insertVertex b).1.numVertices ≤ s.numVertices + 2 :=
    le_trans (insertVertex_numVertices_le' _ b (by omega)) (by omega)
  rw [insert_fields s a b c hnd]
  show (((s.insertVertex a).1.insertVertex b).1.insertVertex c).1.verticesList = _
  rw [insertVertex_verticesList _ c (by omega), hb]

theorem insert_numVertices_bound (s : PrimitiveCache) (a b c : Nat)
    (hnd : ¬(a = b ∨ a = c ∨ b = c)) (hsm : s.numVertices + 3 < 4294967296) :
    s.numVertices ≤ (s.insert a b c).numVertices ∧
      (s.insert a b c).numVertices ≤ s.numVertices + 3 := by
  have h := congrArg List.length (insert_verticesList s a b c hnd hsm)
  rw [verticesList_length] at h
  have l1 : s.verticesList.length ≤ (addUnique s.verticesList a).length := by
    rw [addUnique_length]
    split <;> omega
  have l2 : (addUnique s.verticesList a).length ≤
      (addUnique (addUnique s.verticesList a) b).length := by
    rw [addUnique_length (addUnique s.verticesList a) b]
    split <;> omega
  have l3 : (addUnique (addUnique s.verticesList a) b).length ≤
      (addUnique (addUnique (addUnique s.verticesList a) b) c).length := by
    rw [addUnique_length (addUnique (addUnique s.verticesList a) b) c]
    split <;> omega
  have u1 := addUnique_length_le s.verticesList a
  have u2 := addUnique_length_le (addUnique s.verticesList a) b
  have u3 := addUnique_length_le (addUnique (addUnique s.verticesList a) b) c
  have hlen : s.verticesList.length = s.numVertices := verticesList_length s
  omega

theorem insert_numVertices_eq (s : PrimitiveCache) (a b c : Nat)
    (hnd : ¬(a = b ∨ a = c ∨ b = c)) (hsm : s.numVertices + 3 < 4294967296)
    (hnodup : s.verticesList.Nodup) :
    (s.insert a b c).numVertices = s.numVertices + 3 - s.foundCount a b c := by
  have hd : a ≠ b ∧ a ≠ c ∧ b ≠ c := by tauto
  have h := congrArg List.length (insert_verticesList s a b c hnd hsm)
  have ht : addUnique (addUnique (addUnique s.verticesList a) b) c =
      addTriangle s.verticesList (a, b, c) := rfl
  rw [verticesList_length, ht,
    addTriangle_length _ _ hnodup hd.1 hd.2.1 hd.2.2] at h
  rw [verticesList_length, ← foundCount_eq_counts] at h
  exact h

theorem insert_nodup (s : PrimitiveCache) (a b c : Nat)
    (hnd : ¬(a = b ∨ a = c ∨ b = c)) (hsm : s.numVertices + 3 < 4294967296)
    (hnodup : s.verticesList.Nodup) : (s.insert a b c).verticesList.Nodup := by
  rw [insert_verticesList s a b c hnd hsm]
  exact addUnique_nodup _ _ (addUnique_nodup _ _ (addUnique_nodup _ _ hnodup))

theorem insert_numPrims (s : PrimitiveCache) (a b c : Nat)
    (hnd : ¬(a = b ∨ a = c ∨ b = c)) :
    (s.insert a b c).numPrims = u32 (s.numPrims + 1) := by
  rw [insert_fields s a b c hnd]
  show u32 ((((s.insertVertex a).1.insertVertex b).1.insertVertex c).1.numPrims + 1) = _
  rw [insertVertex_numPrims, insertVertex_numPrims, insertVertex_numPrims]

theorem insert_primitives_ne (s : PrimitiveCache) (a b c : Nat)
    (hnd : ¬(a = b ∨ a = c ∨ b = c)) (p : Nat) (hp : p ≠ s.numPrims) :
    (s.insert a b c).primitives p = s.primitives p := by
  rw [insert_fields s a b c hnd]
  show (if p = (((s.insertVertex a).1.insertVertex b).1.insertVertex c).1.numPrims then _
    else (((s.insertVertex a).1.insertVertex b).1.insertVertex c).1.primitives p) =
      s.primitives p
  rw [insertVertex_numPrims, insertVertex_numPrims, insertVertex_numPrims, if_neg hp,
    insertVertex_primitives, insertVertex_primitives, insertVertex_primitives]

theorem insert_vertices_lt (s : PrimitiveCache) (a b c : Nat)
    (hnd : ¬(a = b ∨ a = c ∨ b = c)) (hsm : s.numVertices + 3 < 4294967296)
    (v : Nat) (hv : v < s.numVertices) :
    (s.insert a b c).vertices v = s.vertices v := by
  have hna := insertVertex_numVertices_le' s a (by omega)
  have hnb := insertVertex_numVertices_le' (s.insertVertex a).1 b (by omega)
  have hga := insertVertex_numVertices_le s a (by omega)
  have hgb := insertVertex_numVertices_le (s.insertVertex a).1 b (by omega)
  rw [insert_fields s a b c hnd]
  show (((s.insertVertex a).1.insertVertex b).1.insertVertex c).1.vertices v = _
  rw [insertVertex_vertices_lt _ c v (by omega), insertVertex_vertices_lt _ b v (by omega),
    insertVertex_vertices_lt _ a v hv]

theorem insert_new_entry (s : PrimitiveCache) (a b c : Nat)
    (hnd : ¬(a = b ∨ a = c ∨ b = c)) (hsm : s.numVertices + 3 < 4294967296) :
    ∃ t0 t1 t2 : Nat,
      (s.insert a b c).primitives s.numPrims = (t0 % 256, t1 % 256, t2 % 256) ∧
        t0 < (s.insert a b c).numVertices ∧ (s.insert a b c).vertices t0 = a ∧
        t1 < (s.insert a b c).numVertices ∧ (s.insert a b c).vertices t1 = b ∧
        t2 < (s.insert a b c).numVertices ∧ (s.insert a b c).vertices t2 = c := by
  have hna := insertVertex_numVertices_le' s a (by omega)
  have hnb := insertVertex_numVertices_le' (s.insertVertex a).1 b (by omega)
  have hra := insertVertex_resolves s a (by omega)
  have hrb := insertVertex_resolves (s.insertVertex a).1 b (by omega)
  have hrc := insertVertex_resolves ((s.insertVertex a).1.insertVertex b).1 c (by omega)
  have hgb := insertVertex_numVertices_le (s.insertVertex a).1 b (by omega)
  have hgc := insertVertex_numVertices_le ((s.insertVertex a).1.insertVertex b).1 c
    (by omega)
  refine ⟨(s.insertVertex a).2, ((s.insertVertex a).1.insertVertex b).2,
    (((s.insertVertex a).1.insertVertex b).1.insertVertex c).2, ?_, ?_, ?_, ?_, ?_, ?_, ?_⟩
  · rw [insert_fields s a b c hnd]
    show (if s.numPrims = (((s.insertVertex a).1.insertVertex b).1.insertVertex c).1.numPrims
      then _ else _) = _
    rw [insertVertex_numPrims, insertVertex_numPrims, insertVertex_numPrims, if_pos rfl]
  · rw [insert_fields s a b c hnd]
    show (s.insertVertex a).2 < (((s.insertVertex a).1.insertVertex b).1.insertVertex c).1.numVertices
    omega
  · rw [insert_fields s a b c hnd]
    show (((s.insertVertex a).1.insertVertex b).1.insertVertex c).1.vertices
      (s.insertVertex a).2 = a
    rw [insertVertex_vertices_lt _ c _ (by omega), insertVertex_vertices_lt _ b _ (by omega)]
    exact hra.2
  · rw [insert_fields s a b c hnd]
    show ((s.insertVertex a).1.insertVertex b).2 <
      (((s.insertVertex a).1.insertVertex b).1.insertVertex c).1.numVertices
    omega
  · rw [insert_fields s a b c hnd]
    show (((s.insertVertex a).1.insertVertex b).1.insertVertex c).1.vertices
      ((s.insertVertex a).1.insertVertex b).2 = b
    rw [insertVertex_vertices_lt _ c _ (by omega)]
    exact hrb.2
  · rw [insert_fields s a b c hnd]
    exact hrc.1
  · rw [insert_fields s a b c hnd]
    exact hrc.2

theorem insert_maxVertexSize (s : PrimitiveCache) (a b c : Nat) :
    (s.insert a b c).maxVertexSize = s.maxVertexSize := by
  unfold PrimitiveCache.insert
  split
  · rfl
  · show (((s.insertVertex a).1.insertVertex b).1.insertVertex c).1.maxVertexSize = _
    rw [insertVertex_maxVertexSize, insertVertex_maxVertexSize, insertVertex_maxVertexSize]

theorem insert_maxPrimitiveSize (s : PrimitiveCache) (a b c : Nat) :
    (s.insert a b c).maxPrimitiveSize = s.maxPrimitiveSize := by
  unfold PrimitiveCache.insert
  split
  · rfl
  · show (((s.insertVertex a).1.insertVertex b).1.insertVertex c).1.maxPrimitiveSize = _
    rw [insertVertex_maxPrimitiveSize, insertVertex_maxPrimitiveSize,
      insertVertex_maxPrimitiveSize]

theorem insert_primitiveBits (s : PrimitiveCache) (a b c : Nat) :
    (s.insert a b c).primitiveBits = s.primitiveBits := by
  unfold PrimitiveCache.insert
  split
  · rfl
  · show (((s.insertVertex a).1.insertVertex b).1.insertVertex c).1.primitiveBits = _
    rw [insertVertex_primitiveBits, insertVertex_primitiveBits, insertVertex_primitiveBits]

theorem insert_maxBlockBits (s : PrimitiveCache) (a b c : Nat) :
    (s.insert a b c).maxBlockBits = s.maxBlockBits := by
  unfold PrimitiveCache.insert
  split
  · rfl
  · show (((s.insertVertex a).1.insertVertex b).1.insertVertex c).1.maxBlockBits = _
    rw [insertVertex_maxBlockBits, insertVertex_maxBlockBits, insertVertex_maxBlockBits]

theorem insert_delta_le (s : PrimitiveCache) (a b c F : Nat)
    (hnd : ¬(a = b ∨ a = c ∨ b = c)) (hsm : s.numVertices + 3 < 4294967296)
    (hF : F = if s.numVertices ≠ 0 then s.vertices 0 else a) :
    (s.insert a b c).numVertexDeltaBits ≤
      max (max (findMSB ((F ^^^ a) ||| 1))
            (max (findMSB ((F ^^^ b) ||| 1)) (findMSB ((F ^^^ c) ||| 1))) + 1)
        s.numVertexDeltaBits := by
  have hna := insertVertex_numVertices_le' s a (by omega)
  have hnb := insertVertex_numVertices_le' (s.insertVertex a).1 b (by omega)
  have hF0 : (s.numVertices = 0 ∧ a = F) ∨ (0 < s.numVertices ∧ s.vertices 0 = F) := by
    by_cases h0 : s.numVertices = 0
    · left
      rw [hF, if_neg (by omega)]
      exact ⟨h0, rfl⟩
    · right
      rw [hF, if_pos h0]
      exact ⟨by omega, rfl⟩
  have za := insertVertex_vertices_zero s a F (by omega) hF0
  have zb := insertVertex_vertices_zero (s.insertVertex a).1 b F (by omega)
    (Or.inr ⟨za.1, za.2⟩)
  have hFor : s.numVertices = 0 ∨ s.vertices 0 = F := by
    rcases hF0 with ⟨h0, _⟩ | ⟨_, h0⟩
    · exact Or.inl h0
    · exact Or.inr h0
  have da := insertVertex_delta_le s a F hFor
  have db := insertVertex_delta_le (s.insertVertex a).1 b F (Or.inr za.2)
  have dc := insertVertex_delta_le ((s.insertVertex a).1.insertVertex b).1 c F
    (Or.inr zb.2)
  have hdelta : (s.insert a b c).numVertexDeltaBits =
      (((s.insertVertex a).1.insertVertex b).1.insertVertex c).1.numVertexDeltaBits := by
    rw [insert_fields s a b c hnd]
  rw [hdelta]
  set ta := findMSB ((F ^^^ a) ||| 1) with hta_def
  set tb := findMSB ((F ^^^ b) ||| 1) with htb_def
  set tc := findMSB ((F ^^^ c) ||| 1) with htc_def
  have hta : ta + 1 ≤ max ta (max tb tc) + 1 := Nat.succ_le_succ (le_max_left _ _)
  have htb : tb + 1 ≤ max ta (max tb tc) + 1 :=
    Nat.succ_le_succ (le_trans (le_max_left _ _) (le_max_right _ _))
  have htc : tc + 1 ≤ max ta (max tb tc) + 1 :=
    Nat.succ_le_succ (le_trans (le_max_right _ _) (le_max_right _ _))
  calc (((s.insertVertex a).1.insertVertex b).1.insertVertex c).1.numVertexDeltaBits
      ≤ max (tc + 1) ((s.insertVertex a).1.insertVertex b).1.numVertexDeltaBits := dc
    _ ≤ max (tc + 1) (max (tb + 1) (s.insertVertex a).1.numVertexDeltaBits) :=
        max_le_max le_rfl db
    _ ≤ max (tc + 1) (max (tb + 1) (max (ta + 1) s.numVertexDeltaBits)) :=
        max_le_max le_rfl (max_le_max le_rfl da)
    _ ≤ max (max ta (max tb tc) + 1) s.numVertexDeltaBits :=
        max_le (le_max_of_le_left htc)
          (max_le (le_max_of_le_left htb)
            (max_le (le_max_of_le_left hta) (le_max_right _ _)))

theorem foundCount_le_len (s : PrimitiveCache) (a b c : Nat) :
    s.foundCount a b c ≤ 3 * s.numVertices := by
  rw [foundCount_eq_counts]
  have ha := List.count_le_length (a := a) (l := s.verticesList)
  have hb := List.count_le_length (a := b) (l := s.verticesList)
  have hc := List.count_le_length (a := c) (l := s.verticesList)
  rw [verticesList_length] at ha hb hc
  omega

theorem cannotInsert_false_elim (s : PrimitiveCache) (a b c : Nat)
    (hG : s.cannotInsert a b c = false) (hnd : ¬(a = b ∨ a = c ∨ b = c))
    (hn : s.numVertices ≤ 256) (hfound : s.foundCount a b c ≤ 3)
    (hp : s.numPrims ≤ 256) :
    s.numVertices + 3 - s.foundCount a b c ≤ s.maxVertexSize ∧
      s.numPrims + 1 ≤ s.maxPrimitiveSize := by
  unfold PrimitiveCache.cannotInsert at hG
  rw [if_neg hnd] at hG
  simp only [Bool.or_eq_false_iff, decide_eq_false_iff_not, not_lt] at hG
  rw [show u32 (s.foundCount a b c) = s.foundCount a b c from u32_of_lt (by omega),
    show u32 (s.numVertices + 3) = s.numVertices + 3 from u32_of_lt (by omega),
    usub32_of_le (by omega) (by omega),
    show u32 (s.numPrims + 1) = s.numPrims + 1 from u32_of_lt (by omega)] at hG
  exact hG

theorem cannotInsertBlock_false_elim (s : PrimitiveCache) (a b c : Nat)
    (hG : s.cannotInsertBlock a b c = false) (hnd : ¬(a = b ∨ a = c ∨ b = c))
    (hn : s.numVertices ≤ 256) (hfound : s.foundCount a b c ≤ 3)
    (hf0 : s.foundCount a b c ≤ 3 * s.numVertices)
    (hp : s.numPrims ≤ 256) (hpb : s.primitiveBits ≤ 32)
    (hdb : s.numVertexDeltaBits ≤ 32) :
    s.numPrims + 1 ≤ s.maxPrimitiveSize ∧
      s.numVertices + 3 - s.foundCount a b c ≤ s.maxVertexSize ∧
      (s.numVertices + 3 - s.foundCount a b c - 1) *
          max (max (findMSB (((if s.numVertices ≠ 0 then s.vertices 0 else a) ^^^ a) ||| 1))
                (max (findMSB (((if s.numVertices ≠ 0 then s.vertices 0 else a) ^^^ b) ||| 1))
                  (findMSB (((if s.numVertices ≠ 0 then s.vertices 0 else a) ^^^ c) ||| 1)))
              + 1)
            s.numVertexDeltaBits +
          s.numPrims * 3 * s.primitiveBits ≤
        s.maxBlockBits := by
  unfold PrimitiveCache.cannotInsertBlock at hG
  rw [if_neg hnd] at hG
  simp only [Bool.or_eq_false_iff, decide_eq_false_iff_not, not_lt] at hG
  set DB := max (max (findMSB (((if s.numVertices ≠ 0 then s.vertices 0 else a) ^^^ a) ||| 1))
      (max (findMSB (((if s.numVertices ≠ 0 then s.vertices 0 else a) ^^^ b) ||| 1))
        (findMSB (((if s.numVertices ≠ 0 then s.vertices 0 else a) ^^^ c) ||| 1))) + 1)
    s.numVertexDeltaBits with hDB_def
  have hDB : DB ≤ 32 := by
    rw [hDB_def]
    exact max_le
      (Nat.succ_le_succ (max_le (findMSB_le _) (max_le (findMSB_le _) (findMSB_le _))))
      hdb
  rw [show u32 (s.foundCount a b c) = s.foundCount a b c from u32_of_lt (by omega),
    show u32 (s.numVertices + 3) = s.numVertices + 3 from u32_of_lt (by omega),
    show u32 (s.numPrims + 1) = s.numPrims + 1 from u32_of_lt (by omega),
    usub32_of_le (show s.foundCount a b c ≤ s.numVertices + 3 by omega) (by omega)] at hG
  rw [usub32_of_le (show 1 ≤ s.numVertices + 3 - s.foundCount a b c by omega) (by omega),
    usub32_of_le (show 1 ≤ s.numPrims + 1 by omega) (by omega),
    show s.numPrims + 1 - 1 = s.numPrims by omega] at hG
  have hvb : (s.numVertices + 3 - s.foundCount a b c - 1) * DB ≤ 8256 :=
    le_trans (Nat.mul_le_mul (show s.numVertices + 3 - s.foundCount a b c - 1 ≤ 258 by omega)
      hDB) (by norm_num)
  have hpbits : s.numPrims * 3 * s.primitiveBits ≤ 24576 :=
    le_trans (Nat.mul_le_mul (show s.numPrims * 3 ≤ 768 by omega) hpb) (by norm_num)
  rw [show u32 ((s.numVertices + 3 - s.foundCount a b c - 1) * DB) =
      (s.numVertices + 3 - s.foundCount a b c - 1) * DB from u32_of_lt (by omega),
    show u32 (s.numPrims * 3 * s.primitiveBits) = s.numPrims * 3 * s.primitiveBits from
      u32_of_lt (by omega)] at hG
  rw [show u32 ((s.numVertices + 3 - s.foundCount a b c - 1) * DB +
        s.numPrims * 3 * s.primitiveBits) =
      (s.numVertices + 3 - s.foundCount a b c - 1) * DB +
        s.numPrims * 3 * s.primitiveBits from u32_of_lt (by omega)] at hG
  exact ⟨hG.1.1, hG.1.2, hG.2⟩

theorem reset_verticesList (s : PrimitiveCache) : s.reset.verticesList = [] := by
  simp [PrimitiveCache.reset, PrimitiveCache.verticesList]

theorem ckInv_reset (s : PrimitiveCache) (hv : s.maxVertexSize ≤ 256)
    (hp : s.maxPrimitiveSize ≤ 256) : CkInv s.reset := by
  refine ⟨hv, hp, Nat.zero_le _, Nat.zero_le _, ?_⟩
  rw [reset_verticesList]
  exact List.nodup_nil

theorem ckInv_step (s : PrimitiveCache) (a b c : Nat) (h : CkInv s)
    (hG : s.cannotInsert a b c = false) : CkInv (s.insert a b c) := by
  by_cases hd : a = b ∨ a = c ∨ b = c
  · rw [insert_of_degenerate s a b c hd]
    exact h
  · have hn256 : s.numVertices ≤ 256 := le_trans h.hv h.hvmax
    have hp256 : s.numPrims ≤ 256 := le_trans h.hp h.hpmax
    have hsm : s.numVertices + 3 < 4294967296 := by omega
    have hfound := foundCount_le_three s h.hnd a b c
    have helim := cannotInsert_false_elim s a b c hG hd hn256 hfound hp256
    refine ⟨?_, ?_, ?_, ?_, ?_⟩
    · rw [insert_maxVertexSize]
      exact h.hvmax
    · rw [insert_maxPrimitiveSize]
      exact h.hpmax
    · rw [insert_numVertices_eq s a b c hd hsm h.hnd, insert_maxVertexSize]
      exact helim.1
    · rw [insert_numPrims s a b c hd, insert_maxPrimitiveSize,
        u32_of_lt (show s.numPrims + 1 < 4294967296 by omega)]
      exact helim.2
    · exact insert_nodup s a b c hd hsm h.hnd

theorem reachedCk_inv (s : PrimitiveCache) (h : s.ReachedCk) : CkInv s := by
  induction h with
  | reset s hv hp => exact ckInv_reset s hv hp
  | step s a b c _ hg ih => exact ckInv_step s a b c ih hg

theorem cacheInv_reset (s : PrimitiveCache) (hv : s.maxVertexSize ≤ 256)
    (hp : s.maxPrimitiveSize ≤ 256) : CacheInv s.reset [] := by
  refine ⟨hv, hp, Nat.zero_le _, Nat.zero_le _, ?_, rfl, ?_⟩
  · rw [reset_verticesList]
    rfl
  · intro p
    exact absurd p.isLt (by simp)

theorem cacheInv_step (s : PrimitiveCache) (acc : List (Nat × Nat × Nat))
    (t : Nat × Nat × Nat) (h : CacheInv s acc)
    (hG : s.cannotInsert t.1 t.2.1 t.2.2 = false) :
    CacheInv (s.insert t.1 t.2.1 t.2.2)
      (if t.1 = t.2.1 ∨ t.1 = t.2.2 ∨ t.2.1 = t.2.2 then acc else acc ++ [t]) := by
  obtain ⟨a, b, c⟩ := t
  by_cases hd : a = b ∨ a = c ∨ b = c
  · rw [if_pos hd, insert_of_degenerate s a b c hd]
    exact h
  · rw [if_neg hd]
    show CacheInv (s.insert a b c) (acc ++ [(a, b, c)])
    have hnodup : s.verticesList.Nodup := by
      rw [h.hvlist]
      exact firstUses_nodup acc
    have hn256 : s.numVertices ≤ 256 := le_trans h.hv h.hvmax
    have hp256 : s.numPrims ≤ 256 := le_trans h.hp h.hpmax
    have hsm : s.numVertices + 3 < 4294967296 := by omega
    have hfound := foundCount_le_three s hnodup a b c
    have helim := cannotInsert_false_elim s a b c hG hd hn256 hfound hp256
    have hnum := insert_numVertices_eq s a b c hd hsm hnodup
    have hvlt : (s.insert a b c).numVertices ≤ (s.insert a b c).maxVertexSize := by
      rw [hnum, insert_maxVertexSize]
      exact helim.1
    have hmono := insert_numVertices_bound s a b c hd hsm
    refine ⟨?_, ?_, hvlt, ?_, ?_, ?_, ?_⟩
    · rw [insert_maxVertexSize]
      exact h.hvmax
    · rw [insert_maxPrimitiveSize]
      exact h.hpmax
    · rw [insert_numPrims s a b c hd, insert_maxPrimitiveSize,
        u32_of_lt (show s.numPrims + 1 < 4294967296 by omega)]
      exact helim.2
    · rw [insert_verticesList s a b c hd hsm, h.hvlist, firstUses_append]
      rfl
    · rw [insert_numPrims s a b c hd,
        u32_of_lt (show s.numPrims + 1 < 4294967296 by omega), h.hnp,
        List.length_append]
      rfl
    · intro p
      have hlen : (acc ++ [(a, b, c)]).length = acc.length + 1 := by
        rw [List.length_append]
        rfl
      by_cases hplt : p.val < acc.length
      · have hold := h.hprim ⟨p.val, hplt⟩
        simp only [Fin.val_mk] at hold
        have hget : (acc ++ [(a, b, c)]).get p = acc.get ⟨p.val, hplt⟩ := by
          simp [List.get_eq_getElem, List.getElem_append_left hplt]
        have hpe : (s.insert a b c).primitives p.val = s.primitives p.val :=
          insert_primitives_ne s a b c hd p.val (by rw [h.hnp]; omega)
        unfold PrimTriOk at hold ⊢
        rw [hget, hpe]
        obtain ⟨⟨h1, h2⟩, ⟨h3, h4⟩, ⟨h5, h6⟩⟩ := hold
        refine ⟨⟨by omega, ?_⟩, ⟨by omega, ?_⟩, ⟨by omega, ?_⟩⟩
        · rw [insert_vertices_lt s a b c hd hsm _ h1]
          exact h2
        · rw [insert_vertices_lt s a b c hd hsm _ h3]
          exact h4
        · rw [insert_vertices_lt s a b c hd hsm _ h5]
          exact h6
      · have hpv : p.val = acc.length := by
          have hp2 := p.isLt
          omega
        have hget : (acc ++ [(a, b, c)]).get p = (a, b, c) := by
          rw [List.get_eq_getElem]
          simp [hpv]
        obtain ⟨t0, t1, t2, hentry, ht0lt, ht0, ht1lt, ht1, ht2lt, ht2⟩ :=
          insert_new_entry s a b c hd hsm
        have hpe : (s.insert a b c).primitives p.val = (t0 % 256, t1 % 256, t2 % 256) := by
          rw [hpv, ← h.hnp]
          exact hentry
        have h256 : (s.insert a b c).numVertices ≤ 256 := by
          refine le_trans hvlt ?_
          rw [insert_maxVertexSize]
          exact h.hvmax
        have e0 : t0 % 256 = t0 := Nat.mod_eq_of_lt (by omega)
        have e1 : t1 % 256 = t1 := Nat.mod_eq_of_lt (by omega)
        have e2 : t2 % 256 = t2 := Nat.mod_eq_of_lt (by omega)
        unfold PrimTriOk
        rw [hget, hpe, e0, e1, e2]
        exact ⟨⟨ht0lt, ht0⟩, ⟨ht1lt, ht1⟩, ⟨ht2lt, ht2⟩⟩

theorem runAcc_inv (tris : List (Nat × Nat × Nat)) :
    ∀ (s : PrimitiveCache) (acc : List (Nat × Nat × Nat)), CacheInv s acc →
      CacheInv (s.runAcc acc tris).1 (s.runAcc acc tris).2 := by
  induction tris with
  | nil =>
    intro s acc h
    simpa [PrimitiveCache.runAcc] using h
  | cons t rest ih =>
    intro s acc h
    by_cases hg : s.cannotInsert t.1 t.2.1 t.2.2 = false
    · simp only [PrimitiveCache.runAcc]
      rw [if_pos hg]
      exact ih _ _ (cacheInv_step s acc t h hg)
    · simp only [PrimitiveCache.runAcc]
      rw [if_neg hg]
      exact ih _ _ h

theorem blockInv_reset (s : PrimitiveCache) (hv : s.maxVertexSize ≤ 256)
    (hp : s.maxPrimitiveSize ≤ 256) (hb : s.primitiveBits ≤ 32) : BlockInv s.reset := by
  refine ⟨hv, hp, hb, Nat.zero_le _, Nat.zero_le _, ?_, Nat.zero_le _⟩
  rw [reset_verticesList]
  exact List.nodup_nil

theorem blockInv_step (s : PrimitiveCache) (a b c : Nat) (h : BlockInv s)
    (hG : s.cannotInsertBlock a b c = false) : BlockInv (s.insert a b c) := by
  by_cases hd : a = b ∨ a = c ∨ b = c
  · rw [insert_of_degenerate s a b c hd]
    exact h
  · have hn256 : s.numVertices ≤ 256 := le_trans h.hv h.hvmax
    have hp256 : s.numPrims ≤ 256 := le_trans h.hp h.hpmax
    have hsm : s.numVertices + 3 < 4294967296 := by omega
    have hfound := foundCount_le_three s h.hnd a b c
    have hfl := foundCount_le_len s a b c
    have helim := cannotInsertBlock_false_elim s a b c hG hd hn256 hfound hfl hp256
      h.hbits h.hdb
    have hdelta := insert_delta_le s a b c
      (if s.numVertices ≠ 0 then s.vertices 0 else a) hd hsm rfl
    refine ⟨?_, ?_, ?_, ?_, ?_, ?_, ?_⟩
    · rw [insert_maxVertexSize]
      exact h.hvmax
    · rw [insert_maxPrimitiveSize]
      exact h.hpmax
    · rw [insert_primitiveBits]
      exact h.hbits
    · rw [insert_numVertices_eq s a b c hd hsm h.hnd, insert_maxVertexSize]
      exact helim.2.1
    · rw [insert_numPrims s a b c hd, insert_maxPrimitiveSize,
        u32_of_lt (show s.numPrims + 1 < 4294967296 by omega)]
      exact helim.1
    · exact insert_nodup s a b c hd hsm h.hnd
    · refine le_trans hdelta (max_le ?_ h.hdb)
      have := max_le (findMSB_le ((if s.numVertices ≠ 0 then s.vertices 0 else a) ^^^ a ||| 1))
        (max_le (findMSB_le ((if s.numVertices ≠ 0 then s.vertices 0 else a) ^^^ b ||| 1))
          (findMSB_le ((if s.numVertices ≠ 0 then s.vertices 0 else a) ^^^ c ||| 1)))
      omega

theorem reachedBlock_inv (s : PrimitiveCache) (h : s.ReachedBlock) : BlockInv s := by
  induction h with
  | reset s hv hp hb => exact blockInv_reset s hv hp hb
  | step s a b c _ hg ih => exact blockInv_step s a b c ih hg

theorem find?_congr_list {p q : Nat → Bool} :
    ∀ l : List Nat, (∀ x ∈ l, p x = q x) → l.find? p = l.find? q := by
  intro l
  induction l with
  | nil => intro _; rfl
  | cons x xs ih =>
    intro h
    have hx := h x (List.mem_cons_self x xs)
    cases hq : q x with
    | true =>
      rw [List.find?_cons_of_pos xs (by rw [hx]; exact hq),
        List.find?_cons_of_pos xs hq]
    | false =>
      rw [List.find?_cons_of_neg xs (by rw [hx, hq]; exact Bool.false_ne_true),
        List.find?_cons_of_neg xs (by rw [hq]; exact Bool.false_ne_true)]
      exact ih fun y hy => h y (List.mem_cons_of_mem x hy)

theorem obsEq_findVertex (s t : PrimitiveCache) (h : ObsEq s t) (idx : Nat) :
    s.findVertex idx = t.findVertex idx := by
  obtain ⟨_, hnv, _, _, _, hvert⟩ := h
  unfold PrimitiveCache.findVertex
  rw [← hnv]
  exact find?_congr_list _ fun v hv => by
    rw [hvert v (List.mem_range.mp hv)]

theorem obsEq_foundCount (s t : PrimitiveCache) (h : ObsEq s t) (a b c : Nat) :
    s.foundCount a b c = t.foundCount a b c := by
  obtain ⟨_, hnv, _, _, _, hvert⟩ := h
  unfold PrimitiveCache.foundCount
  rw [← hnv]
  congr 1
  exact List.map_congr_left fun v hv => by
    rw [hvert v (List.mem_range.mp hv)]

theorem obsEq_cannotInsert (s t : PrimitiveCache) (hobs : ObsEq s t)
    (hcfg : ConfigEq s t) (a b c : Nat) :
    s.cannotInsert a b c = t.cannotInsert a b c := by
  have hfc := obsEq_foundCount s t hobs a b c
  obtain ⟨hnp, hnv, _, _, _, _⟩ := hobs
  obtain ⟨hmv, hmp, _, _⟩ := hcfg
  unfold PrimitiveCache.cannotInsert
  by_cases hd : a = b ∨ a = c ∨ b = c
  · rw [if_pos hd, if_pos hd]
  · rw [if_neg hd, if_neg hd, hfc, hnv, hnp, hmv, hmp]

theorem obsEq_insertVertex (s t : PrimitiveCache) (hobs : ObsEq s t) (idx : Nat) :
    ObsEq (s.insertVertex idx).1 (t.insertVertex idx).1 ∧
      (s.insertVertex idx).2 = (t.insertVertex idx).2 := by
  have hfv := obsEq_findVertex s t hobs idx
  obtain ⟨hnp, hnv, hdb, hab, hprim, hvert⟩ := hobs
  cases h : s.findVertex idx with
  | some v =>
    rw [PrimitiveCache.insertVertex, h, PrimitiveCache.insertVertex, ← hfv, h]
    exact ⟨⟨hnp, hnv, hdb, hab, hprim, hvert⟩, rfl⟩
  | none =>
    rw [PrimitiveCache.insertVertex, h, PrimitiveCache.insertVertex, ← hfv, h]
    refine ⟨⟨hnp, by rw [hnv], ?_, by rw [hab], hprim, ?_⟩, hnv⟩
    · show (if s.numVertices ≠ 0 then
          max (findMSB ((idx ^^^ s.vertices 0) ||| 1) + 1) s.numVertexDeltaBits
        else s.numVertexDeltaBits) =
        (if t.numVertices ≠ 0 then
          max (findMSB ((idx ^^^ t.vertices 0) ||| 1) + 1) t.numVertexDeltaBits
        else t.numVertexDeltaBits)
      by_cases h0 : s.numVertices = 0
      · rw [if_neg (by omega), if_neg (by omega)]
        exact hdb
      · rw [if_pos h0, if_pos (by omega), hvert 0 (by omega), hdb]
    · intro v hv
      show (if v = s.numVertices then idx else s.vertices v) =
        (if v = t.numVertices then idx else t.vertices v)
      by_cases hveq : v = s.numVertices
      · rw [if_pos hveq, if_pos (by omega)]
      · have hlt : v < s.numVertices := by
          have : u32 (s.numVertices + 1) ≤ s.numVertices + 1 := Nat.mod_le _ _
          change v < u32 (s.numVertices + 1) at hv
          omega
        rw [if_neg hveq, if_neg (by omega), hvert v hlt]

theorem obsEq_insert (s t : PrimitiveCache) (hobs : ObsEq s t) (a b c : Nat) :
    ObsEq (s.insert a b c) (t.insert a b c) := by
  by_cases hd : a = b ∨ a = c ∨ b = c
  · rw [insert_of_degenerate s a b c hd, insert_of_degenerate t a b c hd]
    exact hobs
  · have h1 := obsEq_insertVertex s t hobs a
    have h2 := obsEq_insertVertex _ _ h1.1 b
    have h3 := obsEq_insertVertex _ _ h2.1 c
    obtain ⟨⟨g1, g2, g3, g4, g5, g6⟩, e3⟩ := h3
    rw [insert_fields s a b c hd, insert_fields t a b c hd]
    refine ⟨by rw [g1], g2, g3, g4, ?_, g6⟩
    intro p hp
    show (if p = (((s.insertVertex a).1.insertVertex b).1.insertVertex c).1.numPrims
        then _ else _) = (if p = (((t.insertVertex a).1.insertVertex b).1.insertVertex c).1.numPrims
        then _ else _)
    by_cases hpe : p = (((s.insertVertex a).1.insertVertex b).1.insertVertex c).1.numPrims
    · rw [if_pos hpe, if_pos (by rw [← g1]; exact hpe), h1.2, h2.2, e3]
    · have hplt : p < (((s.insertVertex a).1.insertVertex b).1.insertVertex c).1.numPrims := by
        have : u32 ((((s.insertVertex a).1.insertVertex b).1.insertVertex c).1.numPrims + 1) ≤
            (((s.insertVertex a).1.insertVertex b).1.insertVertex c).1.numPrims + 1 :=
          Nat.mod_le _ _
        change p < u32 ((((s.insertVertex a).1.insertVertex b).1.insertVertex c).1.numPrims + 1)
          at hp
        omega
      rw [if_neg hpe, if_neg (by rw [← g1]; exact hpe), g5 p hplt]

theorem configEq_insert (s t : PrimitiveCache) (h : ConfigEq s t) (a b c : Nat) :
    ConfigEq (s.insert a b c) (t.insert a b c) := by
  obtain ⟨h1, h2, h3, h4⟩ := h
  refine ⟨?_, ?_, ?_, ?_⟩
  · rw [insert_maxVertexSize, insert_maxVertexSize]
    exact h1
  · rw [insert_maxPrimitiveSize, insert_maxPrimitiveSize]
    exact h2
  · rw [insert_primitiveBits, insert_primitiveBits]
    exact h3
  · rw [insert_maxBlockBits, insert_maxBlockBits]
    exact h4

theorem obsEq_runAcc (tris : List (Nat × Nat × Nat)) :
    ∀ (s t : PrimitiveCache) (acc1 acc2 : List (Nat × Nat × Nat)),
      ObsEq s t → ConfigEq s t →
      ObsEq (s.runAcc acc1 tris).1 (t.runAcc acc2 tris).1 ∧
        ConfigEq (s.runAcc acc1 tris).1 (t.runAcc acc2 tris).1 := by
  induction tris with
  | nil =>
    intro s t acc1 acc2 hobs hcfg
    simpa [PrimitiveCache.runAcc] using ⟨hobs, hcfg⟩
  | cons tr rest ih =>
    intro s t acc1 acc2 hobs hcfg
    have hguard := obsEq_cannotInsert s t hobs hcfg tr.1 tr.2.1 tr.2.2
    simp only [PrimitiveCache.runAcc]
    rw [← hguard]
    by_cases hg : s.cannotInsert tr.1 tr.2.1 tr.2.2 = false
    · rw [if_pos hg, if_pos hg]
      exact ih _ _ _ _ (obsEq_insert s t hobs tr.1 tr.2.1 tr.2.2)
        (configEq_insert s t hcfg tr.1 tr.2.1 tr.2.2)
    · rw [if_neg hg, if_neg hg]
      exact ih _ _ _ _ hobs hcfg

theorem obsEq_fresh_reset (s : PrimitiveCache) :
    ObsEq (PrimitiveCache.fresh s.maxVertexSize s.maxPrimitiveSize s.primitiveBits
        s.maxBlockBits) s.reset ∧
      ConfigEq (PrimitiveCache.fresh s.maxVertexSize s.maxPrimitiveSize s.primitiveBits
        s.maxBlockBits) s.reset := by
  refine ⟨⟨rfl, rfl, rfl, rfl, ?_, ?_⟩, rfl, rfl, rfl, rfl⟩
  · intro p hp
    exact absurd hp (by simp [PrimitiveCache.fresh])
  · intro v hv
    exact absurd hv (by simp [PrimitiveCache.fresh])

theorem getBitField_low_masked (width sLo value : Nat) (hw1 : 1 ≤ width)
    (hw2 : width ≤ 32) (_hv : value < 4294967296) (hs : sLo < 32) :
    u32 (value <<< sLo) >>> sLo &&&
        (if width = 32 then 4294967295
         else (1 <<< (if sLo + width ≤ 32 then width else 32 - sLo)) - 1) =
      value % 2 ^ min width (32 - sLo) := by
  rw [shifted_mod_read sLo value (by omega)]
  have hmodlt : value % 2 ^ (32 - sLo) < 2 ^ (32 - sLo) := Nat.mod_lt _ (Nat.two_pow_pos _)
  by_cases hw32 : width = 32
  · subst hw32
    rw [if_pos rfl, show (4294967295 : Nat) = 2 ^ 32 - 1 by norm_num,
      Nat.and_pow_two_sub_one_eq_mod,
      Nat.mod_eq_of_lt (lt_of_lt_of_le hmodlt (Nat.pow_le_pow_right (by norm_num) (by omega))),
      show min 32 (32 - sLo) = 32 - sLo by omega]
  · rw [if_neg hw32]
    by_cases honly : sLo + width ≤ 32
    · rw [if_pos honly, Nat.shiftLeft_eq, one_mul, Nat.and_pow_two_sub_one_eq_mod,
        Nat.mod_mod_of_dvd _ (pow_dvd_pow 2 (by omega)),
        show min width (32 - sLo) = width by omega]
    · rw [if_neg honly, Nat.shiftLeft_eq, one_mul, Nat.and_pow_two_sub_one_eq_mod,
        Nat.mod_eq_of_lt hmodlt,
        show min width (32 - sLo) = 32 - sLo by omega]

/-! ## Claim theorems -/

/-- C7: bit-field codec round trip.  For `1 ≤ width ≤ 32`, any 32-bit value
and any offset whose whole field lies within the word array (covering both
the aligned case and the case straddling a 32-bit word boundary), writing
into a zeroed array with `setBitField` and reading back with `getBitField`
at the same width and offset returns `value mod 2^width`. -/
theorem bitfield_roundtrip (arraySize width offset value : Nat)
    (hw1 : 1 ≤ width) (hw2 : width ≤ 32) (hv : value < 4294967296)
    (hfit : offset + width ≤ 32 * arraySize) :
    getBitField arraySize (setBitField arraySize (fun _ => 0) width offset value)
      width offset = value % 2 ^ width := by
  have hsLo : offset % 32 < 32 := Nat.mod_lt _ (by norm_num)
  by_cases honly : offset % 32 + width ≤ 32
  · simp only [getBitField, setBitField_at_idx, setBitField_at_next]
    rw [getBitField_low_masked width (offset % 32) value hw1 hw2 hv hsLo,
      show min width (32 - offset % 32) = width by omega]
    simp [honly, u32]
  · have hidx1 : offset / 32 + 1 < arraySize := by omega
    simp only [getBitField, setBitField_at_idx, setBitField_at_next]
    rw [getBitField_low_masked width (offset % 32) value hw1 hw2 hv hsLo,
      show min width (32 - offset % 32) = 32 - offset % 32 by omega]
    simp only [honly, if_false, hidx1, if_true]
    rw [Nat.shiftLeft_eq 1, one_mul, Nat.and_pow_two_sub_one_eq_mod,
      Nat.shiftRight_eq_div_pow, Nat.shiftLeft_eq]
    have hhilt : value / 2 ^ (32 - offset % 32) % 2 ^ (offset % 32 + width - 32) *
        2 ^ (32 - offset % 32) < 4294967296 := by
      calc value / 2 ^ (32 - offset % 32) % 2 ^ (offset % 32 + width - 32) *
            2 ^ (32 - offset % 32)
          < 2 ^ (offset % 32 + width - 32) * 2 ^ (32 - offset % 32) :=
            (Nat.mul_lt_mul_right (Nat.two_pow_pos _)).mpr
              (Nat.mod_lt _ (Nat.two_pow_pos _))
        _ = 2 ^ width := by rw [← pow_add]; congr 1; omega
        _ ≤ 2 ^ 32 := Nat.pow_le_pow_right (by norm_num) hw2
        _ = 4294967296 := by norm_num
    rw [u32_of_lt hhilt,
      lor_low_high _ _ _ (Nat.mod_lt _ (Nat.two_pow_pos _)), ← Nat.mod_mul,
      ← pow_add, show 32 - offset % 32 + (offset % 32 + width - 32) = width by omega]

/-- C7 witness: a 7-bit field written at offset 30 straddles the word
boundary and reads back `513 mod 128 = 1`. -/
theorem bitfield_roundtrip_witness :
    getBitField 4 (setBitField 4 (fun _ => 0) 7 30 513) 7 30 = 513 % 2 ^ 7 :=
  bitfield_roundtrip 4 7 30 513 (by decide) (by decide) (by decide) (by decide)

/-- C8: when a field straddles past the last word of the array
(`offset/32 = arraySize - 1` and `offset%32 + width > 32`), `setBitField`
silently discards the high part (no word outside `offset/32` is written) and
`getBitField` reads the missing high word as zero, so the read-back is the
written value with its high `offset%32 + width - 32` bits zeroed — i.e.
`value mod 2^(32 - offset%32)` — and neither operation signals an error. -/
theorem bitfield_tail_truncation (arraySize width offset value : Nat)
    (hw2 : width ≤ 32) (hv : value < 4294967296)
    (hlast : offset / 32 = arraySize - 1) (hpos : 0 < arraySize)
    (hstraddle : 32 < offset % 32 + width) :
    getBitField arraySize (setBitField arraySize (fun _ => 0) width offset value)
        width offset = value % 2 ^ (32 - offset % 32) ∧
      ∀ i, i ≠ offset / 32 →
        setBitField arraySize (fun _ => 0) width offset value i = 0 := by
  have hsLo : offset % 32 < 32 := Nat.mod_lt _ (by norm_num)
  have hw1 : 1 ≤ width := by omega
  have hidx1 : ¬offset / 32 + 1 < arraySize := by omega
  constructor
  · have honly : ¬offset % 32 + width ≤ 32 := by omega
    simp only [getBitField, setBitField_at_idx, setBitField_at_next]
    rw [getBitField_low_masked width (offset % 32) value hw1 hw2 hv hsLo,
      show min width (32 - offset % 32) = 32 - offset % 32 by omega]
    simp [honly, hidx1, u32]
  · intro i hi
    exact setBitField_other arraySize width offset value i hi (Or.inr hidx1)

/-- C8 witness: a 12-bit field at offset 58 of a 2-word array loses its top
6 bits: `4095` reads back as `4095 mod 2^6 = 63`, and only word 1 is
written. -/
theorem bitfield_tail_truncation_witness :
    getBitField 2 (setBitField 2 (fun _ => 0) 12 58 4095) 12 58 = 4095 % 2 ^ (32 - 58 % 32) ∧
      ∀ i, i ≠ 58 / 32 → setBitField 2 (fun _ => 0) 12 58 4095 i = 0 :=
  bitfield_tail_truncation 2 12 58 4095 (by decide) (by decide) (by decide) (by decide)
    (by decide)

/-- C1: the spec claims `findMSB` returns the bit position of the
most-significant set bit (`findMSB(1) = 0`, `findMSB(2^k) = k`).  The MSVC
branch (`findMSB_bsr`, via `_BitScanReverse`) does; the portable branch
(`findMSB`, returning `__builtin_clz(value)` unmodified) instead returns the
leading-zero count, contradicting both the other branch and the source's own
comment "ensure one bit is set in deltas for findMSB returning 0". -/
theorem findMSB_branch_divergence :
    findMSB 1 = 31 ∧ findMSB 2 = 30 ∧ findMSB 8 = 28 ∧
      findMSB_bsr 1 = 0 ∧ findMSB_bsr 2 = 1 ∧ findMSB_bsr 8 = 3 := by
  refine ⟨?_, ?_, ?_, ?_, ?_, ?_⟩ <;> simp [findMSB, findMSB_bsr, Nat.log2]

/-- C5 counterexample: `Stats::append` does not sum `posBitTotal`; merging a
stats instance with `posBitTotal = 5` into one with `posBitTotal = 2` leaves
the field at 2 instead of the claimed sum 7. -/
theorem statsAppend_posBitTotal_dropped :
    ¬((({ posBitTotal := 2 } : Stats).append { posBitTotal := 5 }).posBitTotal =
        ({ posBitTotal := 2 } : Stats).posBitTotal +
          ({ posBitTotal := 5 } : Stats).posBitTotal) := by
  decide

/-- C5 amended: `Stats::append` agrees with the spec's field-wise summation
(`Stats.appendSpec`) on every field except `posBitTotal`, which it leaves at
the receiver's prior value. -/
theorem statsAppend_eq_spec_except_posBitTotal (a b : Stats) :
    a.append b = { a.appendSpec b with posBitTotal := a.posBitTotal } :=
  rfl

/-- C2: round-trip fidelity of the check-then-insert protocol from a reset
cache with `maxVertexSize`, `maxPrimitiveSize` at most 256: after processing
any triangle stream (inserting exactly when `cannotInsert` returns `false`),
the written vertex prefix lists the accepted corners in dense first-use order
without duplicates, there is one primitive entry per accepted non-degenerate
triangle, and every stored local index is in range and resolves through
`vertices` to the original input index. -/
theorem cache_roundtrip (s0 : PrimitiveCache) (tris : List (Nat × Nat × Nat))
    (hv : s0.maxVertexSize ≤ 256) (hp : s0.maxPrimitiveSize ≤ 256) :
    RoundTripOk (s0.reset.runAcc [] tris) := by
  have hinv := runAcc_inv tris s0.reset [] (cacheInv_reset s0 hv hp)
  unfold RoundTripOk
  refine ⟨?_, hinv.hvlist, hinv.hnp, hinv.hprim⟩
  rw [hinv.hvlist]
  exact firstUses_nodup _

/-- C2 witness: a stream with a duplicate-vertex triangle and a degenerate
triangle on a configured fresh cache. -/
theorem cache_roundtrip_witness :
    RoundTripOk ((PrimitiveCache.fresh 64 126 1 4294967295).reset.runAcc []
      [(10, 20, 30), (5, 5, 9), (20, 30, 40)]) :=
  cache_roundtrip (PrimitiveCache.fresh 64 126 1 4294967295)
    [(10, 20, 30), (5, 5, 9), (20, 30, 40)] (by decide) (by decide)

/-- C3: under the `cannotInsert` check-then-insert protocol from a reset
cache configured with `maxVertexSize ≤ 256` and `maxPrimitiveSize ≤ 256`,
every reachable state (hence every intermediate and final state of such an
insertion sequence) satisfies `numVertices ≤ maxVertexSize` and
`numPrims ≤ maxPrimitiveSize`. -/
theorem cache_counter_bounds (s : PrimitiveCache) (h : s.ReachedCk) :
    s.numVertices ≤ s.maxVertexSize ∧ s.numPrims ≤ s.maxPrimitiveSize :=
  ⟨(reachedCk_inv s h).hv, (reachedCk_inv s h).hp⟩

/-- C3 witness: one checked insertion on a configured fresh cache. -/
theorem cache_counter_bounds_witness :
    ((PrimitiveCache.fresh 64 126 1 4294967295).reset.insert 10 20 30).numVertices ≤
        ((PrimitiveCache.fresh 64 126 1 4294967295).reset.insert 10 20 30).maxVertexSize ∧
      ((PrimitiveCache.fresh 64 126 1 4294967295).reset.insert 10 20 30).numPrims ≤
        ((PrimitiveCache.fresh 64 126 1 4294967295).reset.insert 10 20 30).maxPrimitiveSize :=
  cache_counter_bounds _
    (PrimitiveCache.ReachedCk.step _ 10 20 30
      (PrimitiveCache.ReachedCk.reset _ (by decide) (by decide)) (by decide))

/-- C4: on every state reachable under the `cannotInsertBlock`
check-then-insert protocol, if `cannotInsertBlock(a,b,c)` returns `false`
then the `assert(fitsBlock())` at the end of `insert(a,b,c)` cannot fail:
either the insert is a degenerate no-op (the assert is not reached) or the
post-insert state still fits the configured bit budget. -/
theorem insert_fitsBlock_of_checked (s : PrimitiveCache) (a b c : Nat)
    (hr : s.ReachedBlock) (hg : s.cannotInsertBlock a b c = false) :
    s.insertAssertOk a b c = true := by
  unfold PrimitiveCache.insertAssertOk
  by_cases hd : a = b ∨ a = c ∨ b = c
  · rw [if_pos hd]
  · rw [if_neg hd]
    have hI := reachedBlock_inv s hr
    have hn256 : s.numVertices ≤ 256 := le_trans hI.hv hI.hvmax
    have hp256 : s.numPrims ≤ 256 := le_trans hI.hp hI.hpmax
    have hsm : s.numVertices + 3 < 4294967296 := by omega
    have hfound := foundCount_le_three s hI.hnd a b c
    have hfl := foundCount_le_len s a b c
    have helim := cannotInsertBlock_false_elim s a b c hg hd hn256 hfound hfl hp256
      hI.hbits hI.hdb
    have hnum := insert_numVertices_eq s a b c hd hsm hI.hnd
    have hnp := insert_numPrims s a b c hd
    have hdelta := insert_delta_le s a b c
      (if s.numVertices ≠ 0 then s.vertices 0 else a) hd hsm rfl
    have hM : max (max (findMSB (((if s.numVertices ≠ 0 then s.vertices 0 else a) ^^^ a) ||| 1))
          (max (findMSB (((if s.numVertices ≠ 0 then s.vertices 0 else a) ^^^ b) ||| 1))
            (findMSB (((if s.numVertices ≠ 0 then s.vertices 0 else a) ^^^ c) ||| 1))) + 1)
        s.numVertexDeltaBits ≤ 32 := by
      refine max_le ?_ hI.hdb
      have := max_le (findMSB_le ((if s.numVertices ≠ 0 then s.vertices 0 else a) ^^^ a ||| 1))
        (max_le (findMSB_le ((if s.numVertices ≠ 0 then s.vertices 0 else a) ^^^ b ||| 1))
          (findMSB_le ((if s.numVertices ≠ 0 then s.vertices 0 else a) ^^^ c ||| 1)))
      omega
    have hD32 : (s.insert a b c).numVertexDeltaBits ≤ 32 := le_trans hdelta hM
    unfold PrimitiveCache.fitsBlock
    dsimp only
    rw [hnp, u32_of_lt (show s.numPrims + 1 < 4294967296 by omega), hnum,
      insert_primitiveBits, insert_maxBlockBits]
    rw [show usub32 (s.numPrims + 1) 1 = s.numPrims from by
        rw [usub32_of_le (by omega) (by omega)]
        omega,
      show usub32 (s.numVertices + 3 - s.foundCount a b c) 1 =
          s.numVertices + 3 - s.foundCount a b c - 1 from
        usub32_of_le (by omega) (by omega)]
    have hprod1 : s.numPrims * 3 * s.primitiveBits ≤ 24576 :=
      le_trans (Nat.mul_le_mul (show s.numPrims * 3 ≤ 768 by omega) hI.hbits) (by norm_num)
    have hprod2 : (s.numVertices + 3 - s.foundCount a b c - 1) *
        (s.insert a b c).numVertexDeltaBits ≤ 8256 :=
      le_trans (Nat.mul_le_mul (show s.numVertices + 3 - s.foundCount a b c - 1 ≤ 258 by omega)
        hD32) (by norm_num)
    have hprod3 : (s.numVertices + 3 - s.foundCount a b c - 1) *
          (s.insert a b c).numVertexDeltaBits ≤
        (s.numVertices + 3 - s.foundCount a b c - 1) *
          max (max (findMSB (((if s.numVertices ≠ 0 then s.vertices 0 else a) ^^^ a) ||| 1))
              (max (findMSB (((if s.numVertices ≠ 0 then s.vertices 0 else a) ^^^ b) ||| 1))
                (findMSB (((if s.numVertices ≠ 0 then s.vertices 0 else a) ^^^ c) ||| 1))) + 1)
            s.numVertexDeltaBits :=
      Nat.mul_le_mul_left _ hdelta
    rw [show u32 (s.numPrims * 3 * s.primitiveBits) = s.numPrims * 3 * s.primitiveBits from
        u32_of_lt (by omega),
      show u32 ((s.numVertices + 3 - s.foundCount a b c - 1) *
          (s.insert a b c).numVertexDeltaBits) =
        (s.numVertices + 3 - s.foundCount a b c - 1) * (s.insert a b c).numVertexDeltaBits from
        u32_of_lt (by omega),
      show u32 (s.numPrims * 3 * s.primitiveBits +
          (s.numVertices + 3 - s.foundCount a b c - 1) * (s.insert a b c).numVertexDeltaBits) =
        s.numPrims * 3 * s.primitiveBits +
          (s.numVertices + 3 - s.foundCount a b c - 1) * (s.insert a b c).numVertexDeltaBits from
        u32_of_lt (by omega)]
    rw [decide_eq_true_eq]
    have hbudget := helim.2.2
    omega

/-- C4 witness: a checked insertion of (10,20,30) into a reset configured
cache. -/
theorem insert_fitsBlock_of_checked_witness :
    (PrimitiveCache.fresh 64 126 1 4294967295).reset.insertAssertOk 10 20 30 = true :=
  insert_fitsBlock_of_checked _ 10 20 30
    (PrimitiveCache.ReachedBlock.reset _ (by decide) (by decide) (by decide))
    (by simp [PrimitiveCache.cannotInsertBlock, PrimitiveCache.fresh, PrimitiveCache.reset,
      PrimitiveCache.foundCount, findMSB, Nat.log2, u32, usub32])

/-- C6: a degenerate triangle (two of the three indices equal) is reported
insertable by both `cannotInsert` and `cannotInsertBlock` on any cache state,
and `insert` returns with the cache completely unchanged. -/
theorem cache_degenerate_noop (s : PrimitiveCache) (a b c : Nat)
    (h : a = b ∨ a = c ∨ b = c) :
    s.cannotInsert a b c = false ∧ s.cannotInsertBlock a b c = false ∧
      s.insert a b c = s := by
  refine ⟨?_, ?_, ?_⟩
  · unfold PrimitiveCache.cannotInsert
    exact if_pos h
  · unfold PrimitiveCache.cannotInsertBlock
    exact if_pos h
  · unfold PrimitiveCache.insert
    exact if_pos h

/-- C6 witness: the degenerate triangle (5,5,9) on a configured fresh cache. -/
theorem cache_degenerate_noop_witness :
    (PrimitiveCache.fresh 64 126 1 4294967295).cannotInsert 5 5 9 = false ∧
      (PrimitiveCache.fresh 64 126 1 4294967295).cannotInsertBlock 5 5 9 = false ∧
      (PrimitiveCache.fresh 64 126 1 4294967295).insert 5 5 9 =
        PrimitiveCache.fresh 64 126 1 4294967295 :=
  cache_degenerate_noop (PrimitiveCache.fresh 64 126 1 4294967295) 5 5 9 (Or.inl rfl)

/-- C9: running any triangle stream under the checked protocol on a freshly
value-initialized cache (zeroed arrays) with a given configuration and on any
previously used cache with the same configuration after `reset()` (vertices
memset to `0xFFFFFFFF`, primitives left stale) produces identical observable
results: equal counters, equal `numVertexDeltaBits` and `numVertexAllBits`,
and equal contents of `primitives[0..numPrims)` and `vertices[0..numVertices)`. -/
theorem reset_run_matches_fresh_run (s : PrimitiveCache) (tris : List (Nat × Nat × Nat)) :
    ObsEq ((PrimitiveCache.fresh s.maxVertexSize s.maxPrimitiveSize s.primitiveBits
        s.maxBlockBits).runAcc [] tris).1 (s.reset.runAcc [] tris).1 :=
  (obsEq_runAcc tris _ _ [] [] (obsEq_fresh_reset s).1 (obsEq_fresh_reset s).2).1

/-- C10: with `appended = 0` or `meshletsTotal = 0`, `Stats::fprint` returns
at its guard, before any division or output. -/
theorem fprint_zero_guard (s : Stats) (h : s.appended = 0 ∨ s.meshletsTotal = 0) :
    s.fprintModel = none := by
  unfold Stats.fprintModel
  exact if_pos h

/-- C10 witness: a stats instance with `meshletsTotal = 7` but nothing ever
appended produces no report. -/
theorem fprint_zero_guard_witness :
    ({ meshletsTotal := 7 } : Stats).fprintModel = none :=
  fprint_zero_guard { meshletsTotal := 7 } (Or.inl rfl)

end NVMeshlet
